import Mathlib

/-!
Verification development for the HanziFlow character-search engine
(`src/services/hanzi-data.ts`).

JavaScript strings are modelled as Lean `String` (lists of Unicode code
points); `Array.prototype.sort` (stable for consistent comparators) is
modelled by the stable `List.insertionSort`; exceptions are modelled with
`Except Unit`; the external `cnchar` linguistic library and the frequency
table are unconstrained oracles passed as parameters.
-/

deriving instance DecidableEq for Except

namespace HanziFlow

/-- JS `a || b` on strings: `""` is falsy. An absent (`undefined`) string is
also encoded as `""` by callers. -/
def jsOr (a b : String) : String := if a = "" then b else a

/-- JS `a?.x || b` where `a?.x : Option String` (`none` = `undefined`). -/
def jsOrO : Option String → String → String
  | some s, d => if s = "" then d else s
  | none, d => d

/-- Auxiliary for `splitOnChar`: JS `String.prototype.split` with a
one-character separator. -/
def splitCharAux (sep : Char) : List Char → List Char → List String
  | [], cur => [String.mk cur.reverse]
  | c :: rest, cur =>
    if c = sep then String.mk cur.reverse :: splitCharAux sep rest []
    else splitCharAux sep rest (c :: cur)

/-- JS `s.split(sep)` for a single-character separator (the only kind the
source uses: `'，'`, `'：'`, `','`, `'\n'`). Always returns a nonempty list. -/
def splitOnChar (sep : Char) (s : String) : List String :=
  splitCharAux sep s.data []

/-- JS `s.startsWith(pre)`. -/
def jsStartsWith (s pre : String) : Bool :=
  pre.data.isPrefixOf s.data

/-- JS `s.includes(c)` for a single character. -/
def jsIncludesChar (s : String) (c : Char) : Bool :=
  s.data.contains c

/-- JS `s.toLowerCase()` (ASCII letters; the source's queries and pinyin are
latin/diacritic strings and only ASCII letters have case here). -/
def jsToLower (s : String) : String :=
  String.mk (s.data.map Char.toLower)

/-- JS whitespace characters recognised by `String.prototype.trim`. -/
def isJsWhitespace (c : Char) : Bool :=
  c = ' ' || c = '\t' || c = '\n' || c = '\r' || c = '\x0b' || c = '\x0c' ||
  c = ' ' || c = '﻿'

/-- JS `s.trim()`. -/
def jsTrim (s : String) : String :=
  String.mk (((s.data.dropWhile isJsWhitespace).reverse.dropWhile isJsWhitespace).reverse)

/-- Tone digit 1–5, as in the regexes `/[1-5]/g`. -/
def isToneDigit (c : Char) : Bool :=
  c = '1' || c = '2' || c = '3' || c = '4' || c = '5'

/-- `keyword.replace(/[1-5]/g, '')`. -/
def removeDigits15 (s : String) : String :=
  String.mk (s.data.filter (fun c => !isToneDigit c))

/-- The per-character effect of the six diacritic character-class
substitutions in `removeTone` (`/[āáǎà]/g → 'a'`, ... `/[ǖǘǚǜ]/g → 'ü'`). -/
def toneMap (c : Char) : Char :=
  if c = 'ā' || c = 'á' || c = 'ǎ' || c = 'à' then 'a'
  else if c = 'ē' || c = 'é' || c = 'ě' || c = 'è' then 'e'
  else if c = 'ī' || c = 'í' || c = 'ǐ' || c = 'ì' then 'i'
  else if c = 'ō' || c = 'ó' || c = 'ǒ' || c = 'ò' then 'o'
  else if c = 'ū' || c = 'ú' || c = 'ǔ' || c = 'ù' then 'u'
  else if c = 'ǖ' || c = 'ǘ' || c = 'ǚ' || c = 'ǜ' then 'ü'
  else c

/-- `removeTone`: lowercase, replace the diacritic classes, drop tone digits
(the replacements are per-character and produce no digits, so the chained
`replace` calls equal one map followed by one filter). -/
def removeTone (p : String) : String :=
  String.mk (((jsToLower p).data.map toneMap).filter (fun c => !isToneDigit c))

/-- Membership in the CJK class `[一-龥]`. -/
def isCJK (c : Char) : Bool :=
  decide (0x4e00 ≤ c.toNat) && decide (c.toNat ≤ 0x9fa5)

/-- `/[一-龥]/.test(keyword)`. -/
def hasHanziIn (s : String) : Bool :=
  s.data.any isCJK

/-- `keyword.match(/[一-龥]/g) || []`: every CJK character of the
input, in order, each as a one-character string. -/
def cjkCharsOf (s : String) : List String :=
  (s.data.filter isCJK).map (fun c => String.mk [c])

/-- Line 333: `keyword.toLowerCase().replace(/[1-5]/g, '')`. -/
def normalizeQuery (kw : String) : String :=
  removeDigits15 (jsToLower kw)

/-- JS `s.slice(0, -1)`. -/
def dropLastChar (s : String) : String :=
  String.mk s.data.dropLast

/-- A search hit, as pushed by the source (the `pinyin` field is always a
string at every construction site in `hanzi-data.ts`: zdict hits carry one
toned reading, cnchar hits carry a `'/'`-joined reading list). -/
structure SearchResult where
  char : String
  pinyin : String
  brief : String
deriving DecidableEq

/-- A `{meaning, examples}` record (zdict aggregation result / meaning-cache
entry). -/
structure MeaningEx where
  meaning : String
  examples : List String
deriving DecidableEq

/-- The module-level mutable state of `hanzi-data.ts`: `ZDICT_LOADED`,
`ZDICT_DATA` (character → (toned pinyin → definitions), a JS object modelled
as an insertion-ordered association list) and `MEANING_CACHE`. -/
structure SearchState where
  zdictLoaded : Bool
  zdictData : List (String × List (String × List String))
  meaningCache : List (String × MeaningEx)
deriving DecidableEq

/-- A value returned by `cnchar.spell` / `cnchar.spellToWord`: a JS array of
strings, a plain string, or anything falsy (`undefined`). -/
inductive SpellRes where
  | arr (l : List String)
  | str (s : String)
  | undef
deriving DecidableEq

/-- A value returned by `cnchar.stroke`: a number, an array of numbers, or
something else. -/
inductive StrokeRes where
  | num (n : Int)
  | arr (l : List Int)
  | other
deriving DecidableEq

/-- A duck-typed radical record: possibly-present `radical`, `name` and
`char` string properties (`none` = property absent/`undefined`). -/
structure RadObj where
  radicalP : Option String
  nameP : Option String
  charP : Option String
deriving DecidableEq

/-- A value returned by `cnchar.radical`: array of records, single record,
string, or falsy. -/
inductive RadicalRes where
  | arr (l : List RadObj)
  | obj (o : RadObj)
  | str (s : String)
  | nul
deriving DecidableEq

/-- A value returned by `cnchar.words` / `cnchar.idiom`: an array of strings
or anything else. -/
inductive WordsRes where
  | arr (l : List String)
  | other
deriving DecidableEq

/-- The external `cnchar` linguistic library, as an unconstrained oracle.
Each call either returns a value or throws (`Except.error`). -/
structure CncharEnv where
  spell : String → Except Unit SpellRes
  spellToWord : String → Except Unit SpellRes
  stroke : String → Except Unit StrokeRes
  radical : String → Except Unit RadicalRes
  words : String → Except Unit WordsRes
  idiom : String → Except Unit WordsRes

/-- The `pinyin` field of `HanziInfo` (line 477): a string, a list of
readings, or `undefined` (when `cnchar.spell` returns an empty array). -/
inductive PinyinVal where
  | str (s : String)
  | list (l : List String)
  | undef
deriving DecidableEq

/-- The fully resolved display record (`HanziInfo` in `types.ts`). `strokes`
is `none` when the JS value would be `undefined` (empty stroke array). -/
structure HanziInfo where
  character : String
  pinyin : PinyinVal
  meaning : String
  radical : String
  strokes : Option Int
  examples : List String
deriving DecidableEq

/-- Lookup in a JS object modelled as an association list (first match). -/
def lookupAssoc {α : Type} (l : List (String × α)) (k : String) : Option α :=
  (l.find? (fun p => p.fst = k)).map (fun p => p.snd)

/-- JS property assignment `obj[k] = v`: replace in place if present, else
append (JS objects preserve insertion order of string keys). -/
def insertAssoc {α : Type} (l : List (String × α)) (k : String) (v : α) :
    List (String × α) :=
  if (l.find? (fun p => p.fst = k)).isSome then
    l.map (fun p => if p.fst = k then (k, v) else p)
  else l ++ [(k, v)]

/-- `getMeaningFromZdict` (lines 169–194): aggregate all pronunciations of a
character from the bulk dictionary. -/
def getMeaningFromZdict (st : SearchState) (c : String) : Option MeaningEx :=
  if st.zdictLoaded = false then none
  else
    match lookupAssoc st.zdictData c with
    | none => none
    | some entry =>
      match entry with
      | [] => some ⟨"暂无释义", []⟩
      | [pd] =>
        some ⟨(match pd.snd with
               | [] => "暂无释义"
               | _ => String.intercalate "；" pd.snd), []⟩
      | _ =>
        some ⟨String.intercalate "\n\n"
          (entry.map (fun pd => "[" ++ pd.fst ++ "] " ++ String.intercalate "；" pd.snd)), []⟩

/-- Steps 2–3 of `getCharacterMeaning`: meaning cache, then placeholder. -/
def getCharacterMeaningFallback (st : SearchState) (c : String) :
    MeaningEx × SearchState :=
  match lookupAssoc st.meaningCache c with
  | some m => (m, st)
  | none => (⟨"暂无释义", []⟩, st)

/-- `getCharacterMeaning` (lines 197–216): zdict first (writing the result
into the meaning cache), then cache, then placeholder. The `localStorage`
persistence call is outside the model. -/
def getCharacterMeaning (st : SearchState) (c : String) :
    MeaningEx × SearchState :=
  if st.zdictLoaded then
    match getMeaningFromZdict st c with
    | some z => (z, { st with meaningCache := insertAssoc st.meaningCache c z })
    | none => getCharacterMeaningFallback st c
  else getCharacterMeaningFallback st c

/-- One zdict hit (lines 260–267): brief from the first definition, split on
full-width comma then full-width colon, falling back to the whole first
definition when the first segment is empty. -/
def mkZdictResult (c p : String) (defs : List String) : SearchResult :=
  let firstDef := match defs with
    | [] => "常用汉字"
    | d :: _ => d
  let seg := (splitOnChar '：' ((splitOnChar '，' firstDef).headD "")).headD ""
  ⟨c, p, jsOr seg firstDef⟩

/-- The inner loop of `searchFromZdict` (lines 253–271): all pronunciations
of one character whose tone-stripped form starts with the prefix. -/
def zdictMatchesOf (c : String) (pm : List (String × List String))
    (pLC : String) : List SearchResult :=
  pm.filterMap (fun pd =>
    if jsStartsWith (removeTone pd.fst) pLC then some (mkZdictResult c pd.fst pd.snd)
    else none)

/-- The outer loop of `searchFromZdict` (lines 243–274): skip entries whose
key is not a single CJK character, accumulate matches, stop once 500 results
have been gathered (checked after each processed entry). -/
def zdictScanGo (pLC : String) :
    List (String × List (String × List String)) → List SearchResult →
    List SearchResult
  | [], acc => acc
  | (c, pm) :: rest, acc =>
    if c.length = 1 ∧ c.data.any isCJK then
      let acc2 := acc ++ zdictMatchesOf c pm pLC
      if acc2.length ≥ 500 then acc2 else zdictScanGo pLC rest acc2
    else zdictScanGo pLC rest acc

/-- `searchFromZdict` (lines 232–278). -/
def searchFromZdict (st : SearchState) (pinyinPre : String) : List SearchResult :=
  if st.zdictLoaded then zdictScanGo (jsToLower pinyinPre) st.zdictData []
  else []

/-- Lines 314–317 (also 361–364, 417–419): display meaning for a cnchar hit:
zdict aggregation, else cached meaning, else a generic gloss. -/
def meaningFor (st : SearchState) (c : String) : String :=
  let zdictM := match getMeaningFromZdict st c with
    | some z => z.meaning
    | none => ""
  let cachedM := match lookupAssoc st.meaningCache c with
    | some m => m.meaning
    | none => ""
  jsOr zdictM (jsOr cachedM "常用汉字")

/-- Lines 317–319: brief = first segment on full-width then ASCII comma,
truncated to its first line plus an ellipsis when it spans lines. -/
def briefOfMeaning (meaning : String) : String :=
  let seg := (splitOnChar ',' ((splitOnChar '，' meaning).headD "")).headD ""
  let brief := jsOr seg (jsOr meaning "常用汉字")
  if jsIncludesChar brief '\n' then ((splitOnChar '\n' brief).headD "") ++ "..."
  else brief

/-- A result built from a `cnchar.spell` value (lines 311–325, 358–371,
415–427): readings joined with `'/'` when an array, the string itself (or
the default `dflt`, which is `""` except in the shortened-prefix retry where
it is the shortened prefix) otherwise. -/
def mkCncharResult (st : SearchState) (c : String) (sp : SpellRes)
    (dflt : String) : SearchResult :=
  let pinyinStr := match sp with
    | .arr l => String.intercalate "/" l
    | .str s => jsOr s dflt
    | .undef => dflt
  ⟨c, pinyinStr, briefOfMeaning (meaningFor st c)⟩

/-- Lines 350–352 and 406–408: coerce a `cnchar.spellToWord` value to a
character list. -/
def stwChars : SpellRes → List String
  | .arr l => l
  | .str s => [s]
  | .undef => []

/-- The characters a `spellToWord` call contributes after the JS coercion,
`[]` when it throws. -/
def stwYield (env : CncharEnv) (q : String) : List String :=
  match env.spellToWord q with
  | .error _ => []
  | .ok r => stwChars r

/-- The running accumulator of `searchCharactersByPinyin`: `results`,
`foundKeys` and `foundChars` (both sets modelled as lists). -/
structure Acc where
  results : List SearchResult
  foundKeys : List String
  foundChars : List String
deriving DecidableEq

/-- The composite dedup key `char + "_" + pinyin` (line 294). -/
def resultKey (r : SearchResult) : String :=
  r.char ++ "_" ++ r.pinyin

/-- `addResult` (lines 291–301): admit a result only when its composite key
is new. -/
def addResult (acc : Acc) (r : SearchResult) : Acc :=
  if resultKey r ∈ acc.foundKeys then acc
  else ⟨acc.results ++ [r], resultKey r :: acc.foundKeys, r.char :: acc.foundChars⟩

/-- Lines 340–343 and 385–399: add zdict hits, breaking once 1000 results
are held (checked before each add). -/
def addAllCapped (acc : Acc) : List SearchResult → Acc
  | [] => acc
  | r :: rest =>
    if acc.results.length ≥ 1000 then acc
    else addAllCapped (addResult acc r) rest

/-- The method-2 loop over `spellToWord` hits (lines 354–372): skip
characters already seen under any pronunciation, break at 1000, and abort
(keeping earlier additions — the surrounding `try` is outside the loop) when
`cnchar.spell` throws. -/
def addCncharLoop (env : CncharEnv) (st : SearchState) (acc : Acc) :
    List String → Acc
  | [] => acc
  | c :: rest =>
    if c ∈ acc.foundChars then addCncharLoop env st acc rest
    else if acc.results.length ≥ 1000 then acc
    else
      match env.spell c with
      | .error _ => acc
      | .ok sp => addCncharLoop env st (addResult acc (mkCncharResult st c sp "")) rest

/-- The method-3 cnchar loop (lines 410–428): like `addCncharLoop` but with
a validity pre-check on each character and the shortened prefix as the
default pinyin. -/
def addCncharLoopShort (env : CncharEnv) (st : SearchState) (sPre : String)
    (acc : Acc) : List String → Acc
  | [] => acc
  | c :: rest =>
    if c.length = 1 ∧ c.data.any isCJK then
      if c ∈ acc.foundChars then addCncharLoopShort env st sPre acc rest
      else if acc.results.length ≥ 1000 then acc
      else
        match env.spell c with
        | .error _ => acc
        | .ok sp =>
          addCncharLoopShort env st sPre
            (addResult acc (mkCncharResult st c sp sPre)) rest
    else addCncharLoopShort env st sPre acc rest

/-- The character-literal loop (lines 308–326): one lookup per distinct CJK
character of the query; the `cnchar.spell` call here is NOT inside any
`try`, so a throw propagates out of the whole search. -/
def addHanziLoop (env : CncharEnv) (st : SearchState) (acc : Acc) :
    List String → Except Unit Acc
  | [] => .ok acc
  | c :: rest =>
    if c ∈ acc.foundChars then addHanziLoop env st acc rest
    else
      match env.spell c with
      | .error e => .error e
      | .ok sp => addHanziLoop env st (addResult acc (mkCncharResult st c sp "")) rest

/-- Lexicographic order on strings as code-point lists (propositionally the
canonical string order, but with a kernel-computable decision procedure). -/
def strLt (a b : String) : Prop := a.data < b.data

instance : ∀ a b : String, Decidable (strLt a b) := fun a b =>
  inferInstanceAs (Decidable (a.data < b.data))

/-- The comparator of lines 441–463 (`localeCompare` modelled as
lexicographic sign; the `pinyin` field is always a string here, so
`getNormPinyin` is `removeTone`). -/
def jsCompareResults (freq : String → Int) (a b : SearchResult) : Int :=
  if removeTone a.pinyin ≠ removeTone b.pinyin then
    (if strLt (removeTone a.pinyin) (removeTone b.pinyin) then -1 else 1)
  else freq a.char - freq b.char

/-- The order relation induced by the comparator: `compare(a,b) <= 0`. A
stable JS sort with a consistent comparator is exactly the stable insertion
sort with this relation. -/
def sortLe (freq : String → Int) (a b : SearchResult) : Prop :=
  jsCompareResults freq a b ≤ 0

instance (freq : String → Int) : DecidableRel (sortLe freq) := fun a b =>
  inferInstanceAs (Decidable (jsCompareResults freq a b ≤ 0))

/-- The final validity filter (lines 434–438). -/
def validResultChar (r : SearchResult) : Bool :=
  decide (r.char.length = 1) && r.char.data.any isCJK

/-- The shortened-prefix retry body (lines 379–431), run when fewer than 10
results were gathered and the normalized query is longer than one
character. -/
def shortRetry (env : CncharEnv) (st : SearchState) (acc3 : Acc)
    (sPre : String) : Acc :=
  let acc5 := if st.zdictLoaded then addAllCapped acc3 (searchFromZdict st sPre)
    else acc3
  if acc5.results.length < 1000 then
    match env.spellToWord sPre with
    | .error _ => acc5
    | .ok r => addCncharLoopShort env st sPre acc5 (stwChars r)
  else acc5

/-- Method 1 (lines 336–344): zdict scan when the bulk dictionary is
loaded. -/
def method1 (st : SearchState) (acc1 : Acc) (np : String) : Acc :=
  if st.zdictLoaded then addAllCapped acc1 (searchFromZdict st np) else acc1

/-- Method 2 (lines 347–376): cnchar `spellToWord` supplement inside its own
`try`. -/
def method2 (env : CncharEnv) (st : SearchState) (acc2 : Acc) (np : String) :
    Acc :=
  if acc2.results.length < 1000 then
    match env.spellToWord np with
    | .error _ => acc2
    | .ok r => addCncharLoop env st acc2 (stwChars r)
  else acc2

/-- Method 3 (lines 379–431): shortened-prefix retry when fewer than 10
results were gathered and the normalized query is longer than one
character. -/
def method3 (env : CncharEnv) (st : SearchState) (acc3 : Acc) (np : String) :
    Acc :=
  if acc3.results.length < 10 ∧ np.length > 1 then
    shortRetry env st acc3 (dropLastChar np)
  else acc3

/-- The candidate accumulator after the three pinyin-mode strategies
(lines 332–431). -/
def pinyinCandidates (env : CncharEnv) (st : SearchState) (acc1 : Acc)
    (keyword : String) : Acc :=
  method3 env st
    (method2 env st (method1 st acc1 (normalizeQuery keyword)) (normalizeQuery keyword))
    (normalizeQuery keyword)

/-- The pinyin-mode pipeline (lines 332–465): the three strategies, the
validity filter, then the sort. -/
def pinyinPhase (env : CncharEnv) (st : SearchState) (freq : String → Int)
    (acc1 : Acc) (keyword : String) : List SearchResult :=
  List.insertionSort (sortLe freq)
    ((pinyinCandidates env st acc1 keyword).results.filter validResultChar)

/-- `searchCharactersByPinyin` (lines 281–466). -/
def searchCharactersByPinyin (env : CncharEnv) (st : SearchState)
    (freq : String → Int) (keyword : String) :
    Except Unit (List SearchResult) :=
  if keyword = "" ∨ jsTrim keyword = "" then .ok []
  else
    match (if hasHanziIn keyword then addHanziLoop env st ⟨[], [], []⟩ (cjkCharsOf keyword)
           else .ok ⟨[], [], []⟩) with
    | .error e => .error e
    | .ok acc1 =>
      if hasHanziIn keyword ∧ acc1.results.length > 0 then .ok acc1.results
      else .ok (pinyinPhase env st freq acc1 keyword)

/-- First-occurrence dedup, JS `Array.from(new Set(xs))`. -/
def jsSetDedupGo : List String → List String → List String
  | [], _ => []
  | x :: rest, seen =>
    if x ∈ seen then jsSetDedupGo rest seen
    else x :: jsSetDedupGo rest (x :: seen)

/-- JS `Array.from(new Set(xs))`. -/
def jsSetDedup (l : List String) : List String :=
  jsSetDedupGo l []

/-- `getCncharExamples` (lines 647–660): compound words then idioms,
deduplicated; any throw inside the shared `try` yields `[]` (`words` is
evaluated first). -/
def getCncharExamples (env : CncharEnv) (c : String) : List String :=
  match env.words c with
  | .error _ => []
  | .ok w =>
    match env.idiom c with
    | .error _ => []
    | .ok i =>
      let r1 := match w with
        | .arr l => l
        | .other => []
      let r2 := match i with
        | .arr l => l
        | .other => []
      jsSetDedup (r1 ++ r2)

/-- `first?.radical || first?.name || first?.char || ""` (lines 493, 496). -/
def radObjStr (o : RadObj) : String :=
  jsOrO o.radicalP (jsOrO o.nameP (jsOrO o.charP ""))

/-- Radical resolution (lines 486–503): inner `try`, degrading to `""` on
throw or unexpected shape (`typeof [] === 'object'`, so an empty array takes
the object branch and yields `""`). -/
def radicalOf (env : CncharEnv) (c : String) : String :=
  match env.radical c with
  | .error _ => ""
  | .ok r =>
    match r with
    | .nul => ""
    | .arr [] => ""
    | .arr (o :: _) => radObjStr o
    | .obj o => radObjStr o
    | .str s => s

/-- Line 477: the displayed pinyin of a detail record. -/
def pinyinValOf : SpellRes → PinyinVal
  | .arr l =>
    if l.length > 1 then .list l
    else match l with
      | [] => .undef
      | x :: _ => .str x
  | .str s => .str s
  | .undef => .str ""

/-- Lines 480–483: the stroke count (`none` models the JS `undefined`
produced by `[][0]`). -/
def strokesOf : StrokeRes → Option Int
  | .num n => some n
  | .arr [] => none
  | .arr (x :: _) => some x
  | .other => some 0

/-- The safe-default record returned from the `catch` block
(lines 519–526). -/
def defaultInfo (c : String) : HanziInfo :=
  ⟨c, .str "", "暂无释义", "", some 0, []⟩

/-- `getCharacterDetails` (lines 469–528). Inside the `try`, only the
`cnchar.spell` and `cnchar.stroke` calls can throw (radical and example
lookups catch locally); a throw yields the safe-default record. Returns the
possibly-updated state (the meaning-cache write of `getCharacterMeaning`). -/
def getCharacterDetails (env : CncharEnv) (st : SearchState) (c : String) :
    Option HanziInfo × SearchState :=
  if c.length ≠ 1 then (none, st)
  else
    match env.spell c with
    | .error _ => (some (defaultInfo c), st)
    | .ok sp =>
      match env.stroke c with
      | .error _ => (some (defaultInfo c), st)
      | .ok sk =>
        let rad := radicalOf env c
        let me := getCharacterMeaning st c
        let examples :=
          (if me.fst.examples.length > 0 then me.fst.examples
           else getCncharExamples env c).take 10
        (some ⟨c, pinyinValOf sp, me.fst.meaning, rad, strokesOf sk, examples⟩,
         me.snd)

/-- The spec's meaning-aggregation formula for a bulk-dictionary entry,
stated from the spec's words (single pronunciation: definitions joined with
`'；'` — amended to the `"暂无释义"` placeholder when the definition list is
empty; polyphonic: bracketed-pronunciation blocks joined by blank lines).
Compared against the code's `getMeaningFromZdict` aggregation. -/
def specMeaningOfEntry (entry : List (String × List String)) : String :=
  match entry with
  | [pd] => if pd.snd = [] then "暂无释义" else String.intercalate "；" pd.snd
  | _ =>
    String.intercalate "\n\n"
      (entry.map (fun pd => "[" ++ pd.fst ++ "] " ++ String.intercalate "；" pd.snd))

/-- The spec's ordering invariant between two adjacent results (claim C2):
tone-stripped pinyin strictly before, or equal with the frequency rank no
larger. -/
def orderedPair (freq : String → Int) (a b : SearchResult) : Prop :=
  strLt (removeTone a.pinyin) (removeTone b.pinyin) ∨
    (removeTone a.pinyin = removeTone b.pinyin ∧ freq a.char ≤ freq b.char)

instance (freq : String → Int) : ∀ a b, Decidable (orderedPair freq a b) :=
  fun a b =>
    inferInstanceAs (Decidable (strLt (removeTone a.pinyin) (removeTone b.pinyin) ∨
      (removeTone a.pinyin = removeTone b.pinyin ∧ freq a.char ≤ freq b.char)))

/-! Concrete fixtures used to instantiate theorems on small inputs. -/

/-- A trivial frequency table. -/
def freq0 : String → Int := fun _ => 0

/-- A frequency table ranking 安 as more frequent than anything else. -/
def freqAn : String → Int := fun c => if c = "安" then 1 else 2

/-- A cnchar oracle that knows the polyphonic character 重 with first poly
reading zhòng, and answers the toneless query chong with it. -/
def envPoly : CncharEnv where
  spell := fun c => if c = "重" then .ok (.arr ["zhòng", "chóng"]) else .ok .undef
  spellToWord := fun q => if q = "chong" then .ok (.arr ["重"]) else .ok (.arr [])
  stroke := fun _ => .ok (.num 9)
  radical := fun _ => .ok .nul
  words := fun _ => .ok .other
  idiom := fun _ => .ok .other

/-- A cnchar oracle knowing 案 (àn) and 安 (ān) and contributing nothing via
`spellToWord`. -/
def envAn : CncharEnv where
  spell := fun c =>
    if c = "案" then .ok (.arr ["àn"])
    else if c = "安" then .ok (.arr ["ān"])
    else .ok .undef
  spellToWord := fun _ => .ok (.arr [])
  stroke := fun _ => .ok (.num 6)
  radical := fun _ => .ok .nul
  words := fun _ => .ok .other
  idiom := fun _ => .ok .other

/-- A cnchar oracle every call of which throws. -/
def envThrow : CncharEnv where
  spell := fun _ => .error ()
  spellToWord := fun _ => .error ()
  stroke := fun _ => .error ()
  radical := fun _ => .error ()
  words := fun _ => .error ()
  idiom := fun _ => .error ()

/-- State with no bulk dictionary loaded and empty caches. -/
def stEmpty : SearchState := ⟨false, [], []⟩

/-- A loaded two-entry dictionary for the query an. -/
def stAn : SearchState :=
  ⟨true, [("安", [("ān", ["peace"])]), ("案", [("àn", ["case"])])], []⟩

/-- A loaded dictionary whose single entry has one pronunciation with an
empty definition list. -/
def stSingleEmpty : SearchState := ⟨true, [("水", [("shuǐ", [])])], []⟩

/-- A loaded dictionary with one polyphonic entry. -/
def stPoly : SearchState :=
  ⟨true, [("重", [("zhòng", ["heavy"]), ("chóng", ["repeat"])])], []⟩

/-! Helper lemmas. -/

theorem char_toNat_ofNat_valid (n : Nat) (h : n.isValidChar) :
    (Char.ofNat n).toNat = n := by
  rw [Char.ofNat, dif_pos h]
  rfl

theorem toLower_toLower (c : Char) :
    Char.toLower (Char.toLower c) = Char.toLower c := by
  unfold Char.toLower
  by_cases h : c.toNat ≥ 65 ∧ c.toNat ≤ 90
  · rw [if_pos h]
    have hv : (c.toNat + 32).isValidChar := by
      apply Or.inl
      omega
    have ht : (Char.ofNat (c.toNat + 32)).toNat = c.toNat + 32 :=
      char_toNat_ofNat_valid _ hv
    rw [ht, if_neg (by omega)]
  · rw [if_neg h, if_neg h]

theorem jsToLower_of_fixed (s : String) (h : ∀ c ∈ s.data, Char.toLower c = c) :
    jsToLower s = s := by
  unfold jsToLower
  have h2 : s.data.map Char.toLower = s.data.map id := List.map_congr_left h
  rw [h2, List.map_id]

theorem mem_jsToLower_fixed (s : String) (c : Char)
    (hc : c ∈ (jsToLower s).data) : Char.toLower c = c := by
  unfold jsToLower at hc
  simp only [List.mem_map] at hc
  obtain ⟨d, _, rfl⟩ := hc
  exact toLower_toLower d

theorem normalizeQuery_fixed (kw : String) :
    ∀ c ∈ (normalizeQuery kw).data, Char.toLower c = c := by
  intro c hc
  unfold normalizeQuery removeDigits15 at hc
  exact mem_jsToLower_fixed kw c (List.mem_of_mem_filter hc)

theorem jsToLower_normalizeQuery (kw : String) :
    jsToLower (normalizeQuery kw) = normalizeQuery kw :=
  jsToLower_of_fixed _ (normalizeQuery_fixed kw)

theorem jsToLower_dropLast_normalizeQuery (kw : String) :
    jsToLower (dropLastChar (normalizeQuery kw)) = dropLastChar (normalizeQuery kw) := by
  apply jsToLower_of_fixed
  intro c hc
  unfold dropLastChar at hc
  exact normalizeQuery_fixed kw c ((List.dropLast_sublist _).subset hc)

theorem mem_zdictMatchesOf {c : String} {pm : List (String × List String)}
    {pLC : String} {r : SearchResult} (h : r ∈ zdictMatchesOf c pm pLC) :
    jsStartsWith (removeTone r.pinyin) pLC = true := by
  unfold zdictMatchesOf at h
  simp only [List.mem_filterMap] at h
  obtain ⟨pd, _, hpd⟩ := h
  split at hpd
  · cases hpd
    simpa [mkZdictResult] using ‹jsStartsWith (removeTone pd.fst) pLC = true›
  · exact absurd hpd (by simp)

theorem mem_zdictScanGo {pLC : String}
    {entries : List (String × List (String × List String))}
    {acc : List SearchResult} {r : SearchResult}
    (h : r ∈ zdictScanGo pLC entries acc) :
    r ∈ acc ∨ jsStartsWith (removeTone r.pinyin) pLC = true := by
  induction entries generalizing acc with
  | nil => exact Or.inl h
  | cons e rest ih =>
    obtain ⟨c, pm⟩ := e
    simp only [zdictScanGo] at h
    split at h
    · split at h
      · rcases List.mem_append.1 h with h1 | h2
        · exact Or.inl h1
        · exact Or.inr (mem_zdictMatchesOf h2)
      · rcases ih h with h1 | h2
        · rcases List.mem_append.1 h1 with h3 | h4
          · exact Or.inl h3
          · exact Or.inr (mem_zdictMatchesOf h4)
        · exact Or.inr h2
    · exact ih h

theorem mem_searchFromZdict {st : SearchState} {p : String} {r : SearchResult}
    (h : r ∈ searchFromZdict st p) :
    jsStartsWith (removeTone r.pinyin) (jsToLower p) = true := by
  unfold searchFromZdict at h
  split at h
  · rcases mem_zdictScanGo h with h1 | h2
    · exact absurd h1 (List.not_mem_nil r)
    · exact h2
  · exact absurd h (List.not_mem_nil r)

theorem mem_addResult {acc : Acc} {r r1 : SearchResult}
    (h : r1 ∈ (addResult acc r).results) : r1 ∈ acc.results ∨ r1 = r := by
  unfold addResult at h
  split at h
  · exact Or.inl h
  · rcases List.mem_append.1 h with h1 | h2
    · exact Or.inl h1
    · exact Or.inr (List.mem_singleton.1 h2)

theorem foundChars_subset_addResult (acc : Acc) (r : SearchResult) :
    acc.foundChars ⊆ (addResult acc r).foundChars := by
  unfold addResult
  split
  · exact fun x hx => hx
  · exact fun x hx => List.mem_cons_of_mem _ hx

theorem length_le_addResult (acc : Acc) (r : SearchResult) :
    acc.results.length ≤ (addResult acc r).results.length := by
  unfold addResult
  split
  · exact Nat.le_refl _
  · simp

theorem mem_addAllCapped {acc : Acc} {l : List SearchResult} {r1 : SearchResult}
    (h : r1 ∈ (addAllCapped acc l).results) : r1 ∈ acc.results ∨ r1 ∈ l := by
  induction l generalizing acc with
  | nil => exact Or.inl h
  | cons r rest ih =>
    unfold addAllCapped at h
    split at h
    · exact Or.inl h
    · rcases ih h with h1 | h2
      · rcases mem_addResult h1 with h3 | h3
        · exact Or.inl h3
        · exact Or.inr (by rw [h3]; exact List.mem_cons_self _ _)
      · exact Or.inr (List.mem_cons_of_mem _ h2)

theorem mem_addCncharLoop {env : CncharEnv} {st : SearchState} {acc : Acc}
    {cs : List String} {r1 : SearchResult}
    (h : r1 ∈ (addCncharLoop env st acc cs).results) :
    r1 ∈ acc.results ∨ r1.char ∉ acc.foundChars := by
  induction cs generalizing acc with
  | nil => exact Or.inl h
  | cons c rest ih =>
    unfold addCncharLoop at h
    by_cases hmem : c ∈ acc.foundChars
    · rw [if_pos hmem] at h
      exact ih h
    · rw [if_neg hmem] at h
      by_cases hlen : acc.results.length ≥ 1000
      · rw [if_pos hlen] at h
        exact Or.inl h
      · rw [if_neg hlen] at h
        cases hsp : env.spell c with
        | error e =>
          rw [hsp] at h
          exact Or.inl h
        | ok sp =>
          rw [hsp] at h
          rcases ih h with h1 | h2
          · rcases mem_addResult h1 with h3 | h3
            · exact Or.inl h3
            · exact Or.inr (by rw [h3]; simpa [mkCncharResult] using hmem)
          · exact Or.inr (fun hc => h2 (foundChars_subset_addResult _ _ hc))

theorem mem_addCncharLoopShort {env : CncharEnv} {st : SearchState}
    {sPre : String} {acc : Acc} {cs : List String} {r1 : SearchResult}
    (h : r1 ∈ (addCncharLoopShort env st sPre acc cs).results) :
    r1 ∈ acc.results ∨ r1.char ∉ acc.foundChars := by
  induction cs generalizing acc with
  | nil => exact Or.inl h
  | cons c rest ih =>
    unfold addCncharLoopShort at h
    by_cases hval : c.length = 1 ∧ c.data.any isCJK
    · rw [if_pos hval] at h
      by_cases hmem : c ∈ acc.foundChars
      · rw [if_pos hmem] at h
        exact ih h
      · rw [if_neg hmem] at h
        by_cases hlen : acc.results.length ≥ 1000
        · rw [if_pos hlen] at h
          exact Or.inl h
        · rw [if_neg hlen] at h
          cases hsp : env.spell c with
          | error e =>
            rw [hsp] at h
            exact Or.inl h
          | ok sp =>
            rw [hsp] at h
            rcases ih h with h1 | h2
            · rcases mem_addResult h1 with h3 | h3
              · exact Or.inl h3
              · exact Or.inr (by rw [h3]; simpa [mkCncharResult] using hmem)
            · exact Or.inr (fun hc => h2 (foundChars_subset_addResult _ _ hc))
    · rw [if_neg hval] at h
      exact ih h

theorem mem_addHanziLoop {env : CncharEnv} {st : SearchState} {acc acc2 : Acc}
    {cs : List String} (hok : addHanziLoop env st acc cs = .ok acc2)
    {r1 : SearchResult} (h : r1 ∈ acc2.results) :
    r1 ∈ acc.results ∨ r1.char ∈ cs := by
  induction cs generalizing acc with
  | nil =>
    cases hok
    exact Or.inl h
  | cons c rest ih =>
    unfold addHanziLoop at hok
    by_cases hmem : c ∈ acc.foundChars
    · rw [if_pos hmem] at hok
      rcases ih hok with h1 | h2
      · exact Or.inl h1
      · exact Or.inr (List.mem_cons_of_mem _ h2)
    · rw [if_neg hmem] at hok
      cases hsp : env.spell c with
      | error e =>
        rw [hsp] at hok
        exact absurd hok (by simp)
      | ok sp =>
        rw [hsp] at hok
        rcases ih hok with h1 | h2
        · rcases mem_addResult h1 with h3 | h3
          · exact Or.inl h3
          · refine Or.inr ?_
            rw [h3]
            simp [mkCncharResult]
        · exact Or.inr (List.mem_cons_of_mem _ h2)

/-- Accumulator invariant: results hold pairwise-distinct composite keys and
every held key is registered in `foundKeys`. -/
def KeysOk (acc : Acc) : Prop :=
  acc.results.Pairwise (fun a b => resultKey a ≠ resultKey b) ∧
  ∀ r ∈ acc.results, resultKey r ∈ acc.foundKeys

theorem keysOk_empty : KeysOk ⟨[], [], []⟩ :=
  ⟨List.Pairwise.nil, fun r hr => absurd hr (List.not_mem_nil r)⟩

theorem keysOk_addResult {acc : Acc} (h : KeysOk acc) (r : SearchResult) :
    KeysOk (addResult acc r) := by
  unfold addResult
  split
  · exact h
  · rename_i hnew
    constructor
    · refine List.pairwise_append.2 ⟨h.1, List.pairwise_singleton _ _, ?_⟩
      intro a ha b hb
      rw [List.mem_singleton.1 hb]
      intro hkey
      exact hnew (hkey ▸ h.2 a ha)
    · intro r1 hr1
      rcases List.mem_append.1 hr1 with h1 | h2
      · exact List.mem_cons_of_mem _ (h.2 r1 h1)
      · rw [List.mem_singleton.1 h2]
        exact List.mem_cons_self _ _

theorem keysOk_addAllCapped {acc : Acc} (h : KeysOk acc)
    (l : List SearchResult) : KeysOk (addAllCapped acc l) := by
  induction l generalizing acc with
  | nil => exact h
  | cons r rest ih =>
    unfold addAllCapped
    split
    · exact h
    · exact ih (keysOk_addResult h r)

theorem keysOk_addCncharLoop {env : CncharEnv} {st : SearchState} {acc : Acc}
    (h : KeysOk acc) (cs : List String) :
    KeysOk (addCncharLoop env st acc cs) := by
  induction cs generalizing acc with
  | nil => exact h
  | cons c rest ih =>
    unfold addCncharLoop
    split
    · exact ih h
    · split
      · exact h
      · split
        · exact h
        · exact ih (keysOk_addResult h _)

theorem keysOk_addCncharLoopShort {env : CncharEnv} {st : SearchState}
    {sPre : String} {acc : Acc} (h : KeysOk acc) (cs : List String) :
    KeysOk (addCncharLoopShort env st sPre acc cs) := by
  induction cs generalizing acc with
  | nil => exact h
  | cons c rest ih =>
    unfold addCncharLoopShort
    split
    · split
      · exact ih h
      · split
        · exact h
        · split
          · exact h
          · exact ih (keysOk_addResult h _)
    · exact ih h

theorem keysOk_addHanziLoop {env : CncharEnv} {st : SearchState}
    {acc acc2 : Acc} {cs : List String} (h : KeysOk acc)
    (hok : addHanziLoop env st acc cs = .ok acc2) : KeysOk acc2 := by
  induction cs generalizing acc with
  | nil =>
    cases hok
    exact h
  | cons c rest ih =>
    unfold addHanziLoop at hok
    split at hok
    · exact ih h hok
    · split at hok
      · exact absurd hok (by simp)
      · exact ih (keysOk_addResult h _) hok

theorem keysOk_shortRetry {env : CncharEnv} {st : SearchState} {acc : Acc}
    (h : KeysOk acc) (sPre : String) : KeysOk (shortRetry env st acc sPre) := by
  simp only [shortRetry]
  split
  · have h5 := keysOk_addAllCapped h (searchFromZdict st sPre)
    split
    · split
      · exact h5
      · exact keysOk_addCncharLoopShort h5 _
    · exact h5
  · split
    · split
      · exact h
      · exact keysOk_addCncharLoopShort h _
    · exact h

/-- Accumulator invariant for the character-literal loop: result characters
are pairwise distinct and all registered in `foundChars`. -/
def CharsOk (acc : Acc) : Prop :=
  (acc.results.map SearchResult.char).Nodup ∧
  ∀ r ∈ acc.results, r.char ∈ acc.foundChars

theorem charsOk_empty : CharsOk ⟨[], [], []⟩ :=
  ⟨List.nodup_nil, fun r hr => absurd hr (List.not_mem_nil r)⟩

theorem charsOk_addResult {acc : Acc} (h : CharsOk acc) {r : SearchResult}
    (hc : r.char ∉ acc.foundChars) : CharsOk (addResult acc r) := by
  unfold addResult
  split
  · exact h
  · constructor
    · rw [List.map_append]
      refine List.Nodup.append h.1 (List.nodup_singleton _) ?_
      intro a ha hb
      simp only [List.map_cons, List.map_nil, List.mem_singleton] at hb
      rcases List.mem_map.1 ha with ⟨r1, hr1, hchar⟩
      have hmem2 : r.char ∈ acc.foundChars := by
        rw [← hb, ← hchar]
        exact h.2 r1 hr1
      exact hc hmem2
    · intro r1 hr1
      rcases List.mem_append.1 hr1 with h1 | h2
      · exact List.mem_cons_of_mem _ (h.2 r1 h1)
      · rw [List.mem_singleton.1 h2]
        exact List.mem_cons_self _ _

theorem charsOk_addHanziLoop {env : CncharEnv} {st : SearchState}
    {acc acc2 : Acc} {cs : List String} (h : CharsOk acc)
    (hok : addHanziLoop env st acc cs = .ok acc2) : CharsOk acc2 := by
  induction cs generalizing acc with
  | nil =>
    cases hok
    exact h
  | cons c rest ih =>
    unfold addHanziLoop at hok
    by_cases hmem : c ∈ acc.foundChars
    · rw [if_pos hmem] at hok
      exact ih h hok
    · rw [if_neg hmem] at hok
      cases hsp : env.spell c with
      | error e =>
        rw [hsp] at hok
        exact absurd hok (by simp)
      | ok sp =>
        rw [hsp] at hok
        refine ih (charsOk_addResult h ?_) hok
        simpa [mkCncharResult] using hmem

theorem length_le_addHanziLoop {env : CncharEnv} {st : SearchState}
    {acc acc2 : Acc} {cs : List String}
    (hok : addHanziLoop env st acc cs = .ok acc2) :
    acc.results.length ≤ acc2.results.length := by
  induction cs generalizing acc with
  | nil =>
    cases hok
    exact Nat.le_refl _
  | cons c rest ih =>
    unfold addHanziLoop at hok
    split at hok
    · exact ih hok
    · split at hok
      · exact absurd hok (by simp)
      · exact Nat.le_trans (length_le_addResult _ _) (ih hok)

theorem addHanziLoop_ne_nil {env : CncharEnv} {st : SearchState} {acc2 : Acc}
    {c : String} {cs : List String}
    (hok : addHanziLoop env st ⟨[], [], []⟩ (c :: cs) = .ok acc2) :
    acc2.results.length > 0 := by
  unfold addHanziLoop at hok
  rw [if_neg (List.not_mem_nil c)] at hok
  cases hsp : env.spell c with
  | error e =>
    rw [hsp] at hok
    exact absurd hok (by simp)
  | ok sp =>
    rw [hsp] at hok
    have h1 := length_le_addHanziLoop hok
    have h2 : (addResult ⟨[], [], []⟩ (mkCncharResult st c sp "")).results.length = 1 := by
      simp [addResult]
    omega

theorem strLt_iff {a b : String} : strLt a b ↔ a < b :=
  Iff.symm String.lt_iff_toList_lt

theorem sortLe_iff (freq : String → Int) (a b : SearchResult) :
    sortLe freq a b ↔ orderedPair freq a b := by
  unfold sortLe jsCompareResults orderedPair
  by_cases h : removeTone a.pinyin = removeTone b.pinyin
  · rw [if_neg (not_not_intro h)]
    constructor
    · intro hle
      exact Or.inr ⟨h, by omega⟩
    · rintro (hlt | ⟨heq, hle⟩)
      · exact absurd h (ne_of_lt (strLt_iff.1 hlt))
      · omega
  · rw [if_pos h]
    by_cases hlt : strLt (removeTone a.pinyin) (removeTone b.pinyin)
    · rw [if_pos hlt]
      constructor
      · intro _
        exact Or.inl hlt
      · intro _
        omega
    · rw [if_neg hlt]
      constructor
      · intro h1
        omega
      · rintro (h2 | ⟨heq, _⟩)
        · exact absurd h2 hlt
        · exact absurd heq h

theorem orderedPair_trans {freq : String → Int} {a b c : SearchResult}
    (h1 : orderedPair freq a b) (h2 : orderedPair freq b c) :
    orderedPair freq a c := by
  rcases h1 with hlt1 | ⟨e1, f1⟩
  · rcases h2 with hlt2 | ⟨e2, f2⟩
    · exact Or.inl (strLt_iff.2 (lt_trans (strLt_iff.1 hlt1) (strLt_iff.1 hlt2)))
    · exact Or.inl (e2 ▸ hlt1)
  · rcases h2 with hlt2 | ⟨e2, f2⟩
    · refine Or.inl ?_
      rw [e1]
      exact hlt2
    · exact Or.inr ⟨e1.trans e2, le_trans f1 f2⟩

theorem orderedPair_total (freq : String → Int) (a b : SearchResult) :
    orderedPair freq a b ∨ orderedPair freq b a := by
  rcases lt_trichotomy (removeTone a.pinyin) (removeTone b.pinyin) with h | h | h
  · exact Or.inl (Or.inl (strLt_iff.2 h))
  · rcases le_total (freq a.char) (freq b.char) with hf | hf
    · exact Or.inl (Or.inr ⟨h, hf⟩)
    · exact Or.inr (Or.inr ⟨h.symm, hf⟩)
  · exact Or.inr (Or.inl (strLt_iff.2 h))

theorem chain'_insertionSort (freq : String → Int) (l : List SearchResult) :
    List.Chain' (orderedPair freq) (List.insertionSort (sortLe freq) l) := by
  haveI : IsTrans SearchResult (sortLe freq) :=
    ⟨fun a b c hab hbc => (sortLe_iff freq a c).2
      (orderedPair_trans ((sortLe_iff freq a b).1 hab) ((sortLe_iff freq b c).1 hbc))⟩
  haveI : IsTotal SearchResult (sortLe freq) := by
    refine ⟨fun a b => ?_⟩
    rcases orderedPair_total freq a b with h | h
    · exact Or.inl ((sortLe_iff freq a b).2 h)
    · exact Or.inr ((sortLe_iff freq b a).2 h)
  have hs := List.sorted_insertionSort (sortLe freq) l
  exact (List.Pairwise.imp (fun hab => (sortLe_iff freq _ _).1 hab) hs).chain'

theorem mem_pinyinPhase {env : CncharEnv} {st : SearchState}
    {freq : String → Int} {acc1 : Acc} {kw : String} {r : SearchResult} :
    r ∈ pinyinPhase env st freq acc1 kw ↔
      r ∈ (pinyinCandidates env st acc1 kw).results ∧ validResultChar r = true := by
  unfold pinyinPhase
  rw [List.Perm.mem_iff (List.perm_insertionSort _ _), List.mem_filter]

theorem mem_method1 {st : SearchState} {acc : Acc} {np : String}
    {r : SearchResult} (h : r ∈ (method1 st acc np).results) :
    r ∈ acc.results ∨ r ∈ searchFromZdict st np := by
  unfold method1 at h
  split at h
  · exact mem_addAllCapped h
  · exact Or.inl h

theorem method2_of_stw_nil {env : CncharEnv} {st : SearchState} {acc : Acc}
    {np : String} (h : stwYield env np = []) : method2 env st acc np = acc := by
  unfold method2
  split
  · cases hsp : env.spellToWord np with
    | error e => rfl
    | ok r =>
      have h2 : stwChars r = [] := by
        unfold stwYield at h
        rw [hsp] at h
        exact h
      show addCncharLoop env st acc (stwChars r) = acc
      rw [h2]
      rfl
  · rfl

theorem shortRetry_of_stw_nil {env : CncharEnv} {st : SearchState} {acc : Acc}
    {sPre : String} (h : stwYield env sPre = []) :
    shortRetry env st acc sPre =
      (if st.zdictLoaded then addAllCapped acc (searchFromZdict st sPre) else acc) := by
  simp only [shortRetry]
  split
  · split
    · cases hsp : env.spellToWord sPre with
      | error e => rfl
      | ok r =>
        have h2 : stwChars r = [] := by
          unfold stwYield at h
          rw [hsp] at h
          exact h
        show addCncharLoopShort env st sPre
            (addAllCapped acc (searchFromZdict st sPre)) (stwChars r) =
          addAllCapped acc (searchFromZdict st sPre)
        rw [h2]
        rfl
    · rfl
  · split
    · cases hsp : env.spellToWord sPre with
      | error e => rfl
      | ok r =>
        have h2 : stwChars r = [] := by
          unfold stwYield at h
          rw [hsp] at h
          exact h
        show addCncharLoopShort env st sPre acc (stwChars r) = acc
        rw [h2]
        rfl
    · rfl

theorem isCJK_not_ws {c : Char} (h : isCJK c = true) : isJsWhitespace c = false := by
  cases hb : isJsWhitespace c
  · rfl
  · exfalso
    simp only [isJsWhitespace, Bool.or_eq_true, decide_eq_true_eq] at hb
    rcases hb with ((((((h1 | h1) | h1) | h1) | h1) | h1) | h1) | h1 <;>
      (subst h1; exact absurd h (by decide))

theorem hasHanzi_not_blank {kw : String} (h : hasHanziIn kw = true) :
    ¬(kw = "" ∨ jsTrim kw = "") := by
  rintro (rfl | htrim)
  · exact absurd h (by decide)
  · obtain ⟨c, hc, hcjk⟩ := List.any_eq_true.1 h
    have hdata : ((kw.data.dropWhile isJsWhitespace).reverse.dropWhile isJsWhitespace).reverse = ([] : List Char) :=
      congrArg String.data htrim
    rw [List.reverse_eq_nil_iff, List.dropWhile_eq_nil_iff] at hdata
    have hsplit : c ∈ kw.data.takeWhile isJsWhitespace ++ kw.data.dropWhile isJsWhitespace := by
      rw [List.takeWhile_append_dropWhile]
      exact hc
    have hws : isJsWhitespace c = true := by
      rcases List.mem_append.1 hsplit with h1 | h2
      · exact List.mem_takeWhile_imp h1
      · exact hdata c (List.mem_reverse.2 h2)
    rw [isCJK_not_ws hcjk] at hws
    exact absurd hws (by decide)

theorem search_ok_elim {env : CncharEnv} {st : SearchState}
    {freq : String → Int} {kw : String} {rs : List SearchResult}
    (hok : searchCharactersByPinyin env st freq kw = .ok rs) :
    ((kw = "" ∨ jsTrim kw = "") ∧ rs = []) ∨
    (∃ acc1, hasHanziIn kw = true ∧
       addHanziLoop env st ⟨[], [], []⟩ (cjkCharsOf kw) = .ok acc1 ∧
       acc1.results.length > 0 ∧ rs = acc1.results) ∨
    (∃ acc1, rs = pinyinPhase env st freq acc1 kw ∧
       ¬(hasHanziIn kw = true ∧ acc1.results.length > 0) ∧
       ((hasHanziIn kw = false ∧ acc1 = (⟨[], [], []⟩ : Acc)) ∨
        (hasHanziIn kw = true ∧
         addHanziLoop env st ⟨[], [], []⟩ (cjkCharsOf kw) = .ok acc1))) := by
  unfold searchCharactersByPinyin at hok
  split at hok
  · rename_i hblank
    cases hok
    exact Or.inl ⟨hblank, rfl⟩
  · rename_i hblank
    cases hH : hasHanziIn kw with
    | false =>
      simp only [hH, Bool.false_eq_true, if_false] at hok
      rw [if_neg (by simp)] at hok
      cases hok
      refine Or.inr (Or.inr ⟨⟨[], [], []⟩, rfl, ?_, Or.inl ⟨rfl, rfl⟩⟩)
      rintro ⟨h1, _⟩
      exact absurd h1 (by decide)
    | true =>
      simp only [hH, if_true] at hok
      split at hok
      · exact absurd hok (by simp)
      · rename_i acc1 haux
        by_cases hlen : acc1.results.length > 0
        · rw [if_pos ⟨trivial, hlen⟩] at hok
          cases hok
          exact Or.inr (Or.inl ⟨acc1, rfl, haux, hlen, rfl⟩)
        · rw [if_neg (fun hc => hlen hc.2)] at hok
          cases hok
          exact Or.inr (Or.inr ⟨acc1, rfl, fun hc => hlen hc.2, Or.inr ⟨rfl, haux⟩⟩)

theorem meaning_fallback_snd (st : SearchState) (c : String) :
    (getCharacterMeaningFallback st c).snd = st := by
  unfold getCharacterMeaningFallback
  cases lookupAssoc st.meaningCache c <;> rfl

theorem getCharacterMeaning_fst_stable (st : SearchState) (c : String) :
    (getCharacterMeaning (getCharacterMeaning st c).snd c).fst =
      (getCharacterMeaning st c).fst := by
  unfold getCharacterMeaning
  cases hl : st.zdictLoaded with
  | false =>
    simp only [hl, Bool.false_eq_true, if_false]
    rw [meaning_fallback_snd]
    simp only [hl, Bool.false_eq_true, if_false]
  | true =>
    simp only [hl, if_true]
    cases hz : getMeaningFromZdict st c with
    | none =>
      simp only [hz]
      rw [meaning_fallback_snd]
      simp only [hl, if_true, hz]
    | some z =>
      simp only [hz]
      have hzd : getMeaningFromZdict
          ⟨true, st.zdictData, insertAssoc st.meaningCache c z⟩ c = some z := by
        unfold getMeaningFromZdict at hz ⊢
        rw [hl] at hz
        simp only [Bool.true_eq_false, if_false] at hz ⊢
        exact hz
      simp [hzd]

theorem details_meaning_state (env : CncharEnv) (st : SearchState) (c : String)
    (hlen : c.length = 1) (sp : SpellRes) (hsp : env.spell c = .ok sp)
    (sk : StrokeRes) (hsk : env.stroke c = .ok sk) :
    (getCharacterDetails env st c).fst = some
      ⟨c, pinyinValOf sp, (getCharacterMeaning st c).fst.meaning, radicalOf env c,
       strokesOf sk,
       (if (getCharacterMeaning st c).fst.examples.length > 0 then
          (getCharacterMeaning st c).fst.examples
        else getCncharExamples env c).take 10⟩ := by
  unfold getCharacterDetails
  rw [if_neg (not_not_intro hlen), hsp, hsk]

/-- C8: calling `getCharacterDetails` twice in succession on the same input,
with no other mutation in between, returns equal `HanziInfo` values. -/
theorem c8_details_idempotent (env : CncharEnv) (st : SearchState) (c : String) :
    (getCharacterDetails env ((getCharacterDetails env st c).snd) c).fst =
      (getCharacterDetails env st c).fst := by
  by_cases hl : c.length ≠ 1
  · simp [getCharacterDetails, hl]
  · cases hsp : env.spell c with
    | error e =>
      simp [getCharacterDetails, hl, hsp]
    | ok sp =>
      cases hsk : env.stroke c with
      | error e =>
        simp [getCharacterDetails, hl, hsp, hsk]
      | ok sk =>
        have hlen : c.length = 1 := not_not.1 hl
        have hsnd : (getCharacterDetails env st c).snd =
            (getCharacterMeaning st c).snd := by
          unfold getCharacterDetails
          rw [if_neg hl, hsp, hsk]
        rw [hsnd, details_meaning_state env st c hlen sp hsp sk hsk,
          details_meaning_state env ((getCharacterMeaning st c).snd) c hlen sp hsp sk hsk,
          getCharacterMeaning_fst_stable]

/-- C9: a query that is empty or trims to whitespace-only returns the empty
list for every oracle, dictionary state and frequency table (so no strategy,
dictionary access or library call can influence the outcome). -/
theorem c9_blank_query_empty (kw : String) (h : jsTrim kw = "")
    (env : CncharEnv) (st : SearchState) (freq : String → Int) :
    searchCharactersByPinyin env st freq kw = .ok [] := by
  unfold searchCharactersByPinyin
  rw [if_pos (Or.inr h)]

theorem c9_witness :
    jsTrim "  " = "" ∧
      searchCharactersByPinyin envPoly stEmpty freq0 "  " = .ok [] :=
  ⟨by decide, c9_blank_query_empty "  " (by decide) envPoly stEmpty freq0⟩

/-- C5 counterexample: on the character-literal query 汉, a throwing
`cnchar.spell` propagates out of `searchCharactersByPinyin` (the call at
line 311 is outside every `try`), so the search does not return a list. -/
theorem c5_counterexample :
    searchCharactersByPinyin envThrow stEmpty freq0 "汉" = .error () := by
  decide

/-- C5 (amended): for every query containing no CJK character, any throw of
the linguistic library (`spellToWord` or `spell`, in any strategy) is caught
locally and the search still returns a result list. -/
theorem c5_amended_pinyin_mode_total (env : CncharEnv) (st : SearchState)
    (freq : String → Int) (kw : String) (h : hasHanziIn kw = false) :
    ∃ rs, searchCharactersByPinyin env st freq kw = .ok rs := by
  cases hok : searchCharactersByPinyin env st freq kw with
  | ok rs => exact ⟨rs, rfl⟩
  | error e =>
    exfalso
    unfold searchCharactersByPinyin at hok
    split at hok
    · exact absurd hok (by simp)
    · simp only [h, Bool.false_eq_true, if_false] at hok
      split at hok
      · exact absurd hok (by simp)
      · exact absurd hok (by simp)

theorem c5_witness :
    hasHanziIn "an" = false ∧
      ∃ rs, searchCharactersByPinyin envThrow stAn freq0 "an" = .ok rs :=
  ⟨by decide, c5_amended_pinyin_mode_total envThrow stAn freq0 "an" (by decide)⟩

/-- C6: `getCharacterDetails` returns `null` exactly on inputs that are not
a single character, and on a single-character input it returns the
safe-default record (empty pinyin, placeholder meaning, empty radical, zero
strokes, no examples) when the linguistic library throws, instead of
propagating the failure. -/
theorem c6_details_null_iff_and_default (env : CncharEnv) (st : SearchState)
    (c : String) :
    ((getCharacterDetails env st c).fst = none ↔ c.length ≠ 1) ∧
    (env.spell c = .error () → c.length = 1 →
      (getCharacterDetails env st c).fst = some (defaultInfo c)) := by
  constructor
  · by_cases hl : c.length ≠ 1
    · simp [getCharacterDetails, hl]
    · constructor
      · intro hnone
        exfalso
        cases hsp : env.spell c with
        | error e =>
          rw [show (getCharacterDetails env st c).fst = some (defaultInfo c) by
            unfold getCharacterDetails
            rw [if_neg hl, hsp]] at hnone
          exact absurd hnone (by simp)
        | ok sp =>
          cases hsk : env.stroke c with
          | error e =>
            rw [show (getCharacterDetails env st c).fst = some (defaultInfo c) by
              unfold getCharacterDetails
              rw [if_neg hl, hsp, hsk]] at hnone
            exact absurd hnone (by simp)
          | ok sk =>
            rw [details_meaning_state env st c (not_not.1 hl) sp hsp sk hsk] at hnone
            exact absurd hnone (by simp)
      · intro h1
        exact absurd h1 hl
  · intro herr hlen
    unfold getCharacterDetails
    rw [if_neg (not_not_intro hlen), herr]

theorem c6_witness :
    ((getCharacterDetails envThrow stAn "安").fst = none ↔ ("安".length ≠ 1)) ∧
      (getCharacterDetails envThrow stAn "安").fst = some (defaultInfo "安") :=
  ⟨(c6_details_null_iff_and_default envThrow stAn "安").1,
   (c6_details_null_iff_and_default envThrow stAn "安").2 rfl (by decide)⟩

/-- C7 (amended): for a character present in the loaded bulk dictionary with
a nonempty pronunciation map, the meaning returned by `getCharacterDetails`
follows the aggregation formula `specMeaningOfEntry`: with exactly one
pronunciation, its definitions joined with `'；'` — except that an empty
definition list yields the placeholder `"暂无释义"` rather than the empty
join; with two or more pronunciations, the bracketed-pronunciation blocks
joined by blank lines. -/
theorem c7_amended_meaning_aggregation (env : CncharEnv) (st : SearchState)
    (c : String) (entry : List (String × List String))
    (hload : st.zdictLoaded = true)
    (hent : lookupAssoc st.zdictData c = some entry)
    (hne : entry ≠ [])
    (hlen : c.length = 1)
    (sp : SpellRes) (hsp : env.spell c = .ok sp)
    (sk : StrokeRes) (hsk : env.stroke c = .ok sk) :
    ((getCharacterDetails env st c).fst.map HanziInfo.meaning) =
      some (specMeaningOfEntry entry) := by
  rw [details_meaning_state env st c hlen sp hsp sk hsk]
  have hz : getMeaningFromZdict st c = some ⟨specMeaningOfEntry entry, []⟩ := by
    unfold getMeaningFromZdict
    rw [hload]
    simp only [Bool.true_eq_false, if_false]
    rw [hent]
    match entry, hne with
    | [pd], _ =>
      cases hd : pd.snd <;> simp [specMeaningOfEntry, hd]
    | a :: b :: t, _ =>
      simp [specMeaningOfEntry]
  show some (getCharacterMeaning st c).fst.meaning = some (specMeaningOfEntry entry)
  unfold getCharacterMeaning
  rw [hload, if_pos rfl, hz]

theorem c7_counterexample :
    ((getCharacterDetails envPoly stSingleEmpty "水").fst.map HanziInfo.meaning) =
        some "暂无释义" ∧
      ("暂无释义" : String) ≠ String.intercalate "；" ([] : List String) := by
  constructor
  · decide
  · decide

theorem c7_witness :
    ((getCharacterDetails envPoly stPoly "重").fst.map HanziInfo.meaning) =
      some (specMeaningOfEntry [("zhòng", ["heavy"]), ("chóng", ["repeat"])]) :=
  c7_amended_meaning_aggregation envPoly stPoly "重"
    [("zhòng", ["heavy"]), ("chóng", ["repeat"])]
    rfl (by decide) (by decide) (by decide)
    (.arr ["zhòng", "chóng"]) (by decide) (.num 9) (by decide)

theorem keysOk_method1 {st : SearchState} {acc : Acc} (h : KeysOk acc)
    (np : String) : KeysOk (method1 st acc np) := by
  unfold method1
  split
  · exact keysOk_addAllCapped h _
  · exact h

theorem keysOk_method2 {env : CncharEnv} {st : SearchState} {acc : Acc}
    (h : KeysOk acc) (np : String) : KeysOk (method2 env st acc np) := by
  unfold method2
  split
  · split
    · exact h
    · exact keysOk_addCncharLoop h _
  · exact h

theorem keysOk_method3 {env : CncharEnv} {st : SearchState} {acc : Acc}
    (h : KeysOk acc) (np : String) : KeysOk (method3 env st acc np) := by
  unfold method3
  split
  · exact keysOk_shortRetry h _
  · exact h

theorem keysOk_pinyinCandidates {env : CncharEnv} {st : SearchState}
    {acc1 : Acc} (h : KeysOk acc1) (kw : String) :
    KeysOk (pinyinCandidates env st acc1 kw) :=
  keysOk_method3 (keysOk_method2 (keysOk_method1 h _) _) _

theorem list_all_eq_nodup_singleton {l : List String} {a : String}
    (hne : l ≠ []) (hall : ∀ x ∈ l, x = a) (hnd : l.Nodup) : l = [a] := by
  cases l with
  | nil => exact absurd rfl hne
  | cons x t =>
    have hx : x = a := hall x (List.mem_cons_self _ _)
    subst hx
    cases t with
    | nil => rfl
    | cons y u =>
      have hy : y = x := (hall y (by simp)).trans (hall x (by simp)).symm
      have hmem : x ∈ y :: u := by
        rw [hy]
        exact List.mem_cons_self _ _
      exact absurd hmem (List.nodup_cons.1 hnd).1

/-- C3: in every returned list, no two entries share both character and
pronunciation (the composite dedup key admits each pair once); moreover the
linguistic-library loop never adds a result for a character already present
in `foundChars` under any pronunciation. -/
theorem c3_dedup_invariant (env : CncharEnv) (st : SearchState)
    (freq : String → Int) (kw : String) (rs : List SearchResult)
    (hok : searchCharactersByPinyin env st freq kw = .ok rs) :
    rs.Pairwise (fun a b => ¬(a.char = b.char ∧ a.pinyin = b.pinyin)) ∧
    (∀ (acc : Acc) (cs : List String) (r1 : SearchResult),
      r1 ∈ (addCncharLoop env st acc cs).results →
        r1 ∈ acc.results ∨ r1.char ∉ acc.foundChars) := by
  refine ⟨?_, fun acc cs r1 hmem => mem_addCncharLoop hmem⟩
  have himp : ∀ l : List SearchResult,
      l.Pairwise (fun a b => resultKey a ≠ resultKey b) →
      l.Pairwise (fun a b => ¬(a.char = b.char ∧ a.pinyin = b.pinyin)) := by
    intro l hp
    refine hp.imp ?_
    intro a b hk hab
    apply hk
    unfold resultKey
    rw [hab.1, hab.2]
  rcases search_ok_elim hok with ⟨_, rfl⟩ | ⟨acc1, _, haux, _, rfl⟩ |
    ⟨acc1, rfl, _, hsrc⟩
  · exact List.Pairwise.nil
  · exact himp _ (keysOk_addHanziLoop keysOk_empty haux).1
  · have hk1 : KeysOk acc1 := by
      rcases hsrc with ⟨_, rfl⟩ | ⟨_, haux⟩
      · exact keysOk_empty
      · exact keysOk_addHanziLoop keysOk_empty haux
    have hk4 := @keysOk_pinyinCandidates env st acc1 hk1 kw
    have hfilter : ((pinyinCandidates env st acc1 kw).results.filter
        validResultChar).Pairwise (fun a b => resultKey a ≠ resultKey b) :=
      List.Pairwise.sublist (List.filter_sublist _) hk4.1
    have hperm := List.perm_insertionSort (sortLe freq)
      ((pinyinCandidates env st acc1 kw).results.filter validResultChar)
    exact himp _ ((List.Perm.pairwise_iff
      (fun hab => Ne.symm hab) hperm).2 hfilter)

theorem c3_witness :
    ([⟨"安", "ān", "peace"⟩, ⟨"案", "àn", "case"⟩] : List SearchResult).Pairwise
      (fun a b => ¬(a.char = b.char ∧ a.pinyin = b.pinyin)) :=
  (c3_dedup_invariant envAn stAn freqAn "an"
    [⟨"安", "ān", "peace"⟩, ⟨"案", "àn", "case"⟩] (by decide)).1

/-- C10: every result returned by any search has a `char` that is exactly
one character lying in the CJK range U+4E00–U+9FA5: character-mode results
are extracted by the CJK regex, pinyin-mode results pass the final validity
filter. -/
theorem c10_result_chars_valid (env : CncharEnv) (st : SearchState)
    (freq : String → Int) (kw : String) (rs : List SearchResult)
    (hok : searchCharactersByPinyin env st freq kw = .ok rs) :
    ∀ r ∈ rs, r.char.length = 1 ∧ r.char.data.any isCJK = true := by
  intro r hr
  rcases search_ok_elim hok with ⟨_, rfl⟩ | ⟨acc1, _, haux, _, rfl⟩ |
    ⟨acc1, rfl, _, _⟩
  · exact absurd hr (List.not_mem_nil r)
  · rcases mem_addHanziLoop haux hr with h1 | h2
    · exact absurd h1 (List.not_mem_nil r)
    · unfold cjkCharsOf at h2
      rcases List.mem_map.1 h2 with ⟨cc, hcc, heq⟩
      have hcjk : isCJK cc = true := (List.mem_filter.1 hcc).2
      constructor
      · rw [← heq]
        rfl
      · rw [← heq]
        simp [hcjk]
  · have hval := (mem_pinyinPhase.1 hr).2
    unfold validResultChar at hval
    rw [Bool.and_eq_true] at hval
    exact ⟨of_decide_eq_true hval.1, hval.2⟩

theorem c10_witness :
    (⟨"安", "ān", "peace"⟩ : SearchResult).char.length = 1 ∧
      (⟨"安", "ān", "peace"⟩ : SearchResult).char.data.any isCJK = true :=
  c10_result_chars_valid envAn stAn freqAn "an"
    [⟨"安", "ān", "peace"⟩, ⟨"案", "àn", "case"⟩] (by decide)
    ⟨"安", "ān", "peace"⟩ (by decide)

/-- C2 (amended): every list returned in pinyin mode (query containing no
CJK character) satisfies the adjacent ordering invariant: tone-stripped
pinyin strictly increasing, or equal with frequency rank non-decreasing.
(Character-literal queries return results in query order without sorting,
so the invariant can fail there — see the counterexample.) The order is a
pure function of the inputs, hence deterministic. -/
theorem c2_amended_pinyin_mode_sorted (env : CncharEnv) (st : SearchState)
    (freq : String → Int) (kw : String) (rs : List SearchResult)
    (hh : hasHanziIn kw = false)
    (hok : searchCharactersByPinyin env st freq kw = .ok rs) :
    List.Chain' (orderedPair freq) rs := by
  rcases search_ok_elim hok with ⟨_, rfl⟩ | ⟨acc1, hH, _, _, _⟩ |
    ⟨acc1, rfl, _, _⟩
  · exact List.chain'_nil
  · rw [hh] at hH
    exact absurd hH (by decide)
  · exact chain'_insertionSort freq _

theorem c2_counterexample :
    searchCharactersByPinyin envAn stEmpty freqAn "案安" =
        .ok [⟨"案", "àn", "常用汉字"⟩, ⟨"安", "ān", "常用汉字"⟩] ∧
      ¬ orderedPair freqAn ⟨"案", "àn", "常用汉字"⟩ ⟨"安", "ān", "常用汉字"⟩ :=
  ⟨by decide, by decide⟩

theorem c2_witness :
    List.Chain' (orderedPair freqAn)
      [⟨"安", "ān", "peace"⟩, ⟨"案", "àn", "case"⟩] :=
  c2_amended_pinyin_mode_sorted envAn stAn freqAn "an"
    [⟨"安", "ān", "peace"⟩, ⟨"案", "àn", "case"⟩] (by decide) (by decide)

/-- C4: for a query containing a CJK character whose lookups produce
results, every returned result is one of the query's literal CJK characters
(pinyin search is never consulted), each distinct literal character yields
at most one result, and the query 汉 yields exactly one result carrying
汉. -/
theorem c4_literal_mode (env : CncharEnv) (st : SearchState)
    (freq : String → Int) (kw : String) (rs : List SearchResult)
    (hh : hasHanziIn kw = true)
    (hok : searchCharactersByPinyin env st freq kw = .ok rs)
    (hne : rs ≠ []) :
    (∀ r ∈ rs, r.char ∈ cjkCharsOf kw) ∧
      (rs.map SearchResult.char).Nodup ∧
      (kw = "汉" → rs.map SearchResult.char = ["汉"]) := by
  rcases search_ok_elim hok with ⟨hblank, _⟩ | ⟨acc1, _, haux, hpos, rfl⟩ |
    ⟨acc1, rfl, hcond, hsrc⟩
  · exact absurd hblank (hasHanzi_not_blank hh)
  · have hmem : ∀ r ∈ acc1.results, r.char ∈ cjkCharsOf kw := by
      intro r hr
      rcases mem_addHanziLoop haux hr with h1 | h2
      · exact absurd h1 (List.not_mem_nil r)
      · exact h2
    have hchars : CharsOk acc1 := charsOk_addHanziLoop charsOk_empty haux
    refine ⟨hmem, hchars.1, ?_⟩
    rintro rfl
    have hcj : cjkCharsOf "汉" = ["汉"] := by decide
    have hsub : ∀ x ∈ acc1.results.map SearchResult.char, x = "汉" := by
      intro x hx
      rcases List.mem_map.1 hx with ⟨r, hr, rfl⟩
      have hin := hmem r hr
      rw [hcj] at hin
      exact List.mem_singleton.1 hin
    have hne2 : acc1.results.map SearchResult.char ≠ [] := by
      intro hnil
      cases hrl : acc1.results with
      | nil =>
        rw [hrl] at hpos
        exact absurd hpos (by simp)
      | cons a t =>
        rw [hrl] at hnil
        exact absurd hnil (by simp)
    exact list_all_eq_nodup_singleton hne2 hsub hchars.1
  · exfalso
    rcases hsrc with ⟨hHf, _⟩ | ⟨_, haux⟩
    · rw [hh] at hHf
      exact absurd hHf (by decide)
    · have hlen0 : ¬ acc1.results.length > 0 := fun hp => hcond ⟨hh, hp⟩
      obtain ⟨c, hc, hcjk⟩ := List.any_eq_true.1 hh
      have hin : String.mk [c] ∈ cjkCharsOf kw :=
        List.mem_map.2 ⟨c, List.mem_filter.2 ⟨hc, hcjk⟩, rfl⟩
      cases hcl : cjkCharsOf kw with
      | nil =>
        rw [hcl] at hin
        exact absurd hin (List.not_mem_nil _)
      | cons a cs =>
        rw [hcl] at haux
        exact hlen0 (addHanziLoop_ne_nil haux)

theorem c4_witness :
    ([⟨"汉", "", "常用汉字"⟩] : List SearchResult).map SearchResult.char = ["汉"] :=
  (c4_literal_mode envPoly stEmpty freq0 "汉" [⟨"汉", "", "常用汉字"⟩]
    (by decide) (by decide) (by decide)).2.2 rfl

/-- C1 (amended): for a pinyin-mode query (no CJK characters), when the
linguistic-library lookups contribute no candidates, every returned result's
tone-stripped pronunciation starts with the normalized query (lowercased,
digit tone markers stripped), or — only when the shortened-prefix fallback
is reachable (normalized query longer than one character) — with the
normalized query minus its last character. Results contributed by the
linguistic library carry a slash-joined list of all the character's readings
and need not satisfy the prefix condition — see the counterexample. -/
theorem c1_amended_prefix_invariant (env : CncharEnv) (st : SearchState)
    (freq : String → Int) (kw : String) (rs : List SearchResult)
    (hh : hasHanziIn kw = false)
    (hstw : ∀ q, stwYield env q = [])
    (hok : searchCharactersByPinyin env st freq kw = .ok rs) :
    ∀ r ∈ rs, jsStartsWith (removeTone r.pinyin) (normalizeQuery kw) = true ∨
      ((normalizeQuery kw).length > 1 ∧
       jsStartsWith (removeTone r.pinyin) (dropLastChar (normalizeQuery kw)) = true) := by
  intro r hr
  rcases search_ok_elim hok with ⟨_, rfl⟩ | ⟨_, hH, _, _, _⟩ |
    ⟨acc1, rfl, _, hsrc⟩
  · exact absurd hr (List.not_mem_nil r)
  · rw [hh] at hH
    exact absurd hH (by decide)
  · have hacc1 : acc1 = (⟨[], [], []⟩ : Acc) := by
      rcases hsrc with ⟨_, rfl⟩ | ⟨hH, _⟩
      · rfl
      · rw [hh] at hH
        exact absurd hH (by decide)
    subst hacc1
    have hr4 : r ∈ (pinyinCandidates env st ⟨[], [], []⟩ kw).results :=
      (mem_pinyinPhase.1 hr).1
    unfold pinyinCandidates at hr4
    rw [method2_of_stw_nil (hstw _)] at hr4
    unfold method3 at hr4
    by_cases hcnd : (method1 st ⟨[], [], []⟩ (normalizeQuery kw)).results.length < 10 ∧
        (normalizeQuery kw).length > 1
    · rw [if_pos hcnd, shortRetry_of_stw_nil (hstw _)] at hr4
      have hm : r ∈ (method1 st ⟨[], [], []⟩ (normalizeQuery kw)).results ∨
          r ∈ searchFromZdict st (dropLastChar (normalizeQuery kw)) := by
        split at hr4
        · exact mem_addAllCapped hr4
        · exact Or.inl hr4
      rcases hm with h1 | h2
      · rcases mem_method1 h1 with h3 | h4
        · exact absurd h3 (List.not_mem_nil r)
        · left
          have hp := mem_searchFromZdict h4
          rwa [jsToLower_normalizeQuery] at hp
      · right
        refine ⟨hcnd.2, ?_⟩
        have hp := mem_searchFromZdict h2
        rwa [jsToLower_dropLast_normalizeQuery] at hp
    · rw [if_neg hcnd] at hr4
      rcases mem_method1 hr4 with h3 | h4
      · exact absurd h3 (List.not_mem_nil r)
      · left
        have hp := mem_searchFromZdict h4
        rwa [jsToLower_normalizeQuery] at hp

/-- C1 counterexample: query chong, with the bulk dictionary unloaded and a
cnchar oracle knowing the polyphonic 重 (readings zhòng/chóng). The unique
returned result carries the slash-joined pinyin zhòng/chóng, whose
tone-stripped form starts neither with the normalized query nor with the
shortened fallback query. -/
theorem c1_counterexample :
    searchCharactersByPinyin envPoly stEmpty freq0 "chong" =
        .ok [⟨"重", "zhòng/chóng", "常用汉字"⟩] ∧
      jsStartsWith (removeTone "zhòng/chóng") (normalizeQuery "chong") = false ∧
      jsStartsWith (removeTone "zhòng/chóng")
        (dropLastChar (normalizeQuery "chong")) = false :=
  ⟨by decide, by decide, by decide⟩

theorem c1_witness :
    jsStartsWith (removeTone (SearchResult.pinyin ⟨"安", "ān", "peace"⟩))
        (normalizeQuery "an") = true ∨
      ((normalizeQuery "an").length > 1 ∧
       jsStartsWith (removeTone (SearchResult.pinyin ⟨"安", "ān", "peace"⟩))
         (dropLastChar (normalizeQuery "an")) = true) :=
  c1_amended_prefix_invariant envAn stAn freqAn "an"
    [⟨"安", "ān", "peace"⟩, ⟨"案", "àn", "case"⟩] (by decide) (fun _ => rfl)
    (by decide) ⟨"安", "ān", "peace"⟩ (by decide)

end HanziFlow
